import Mathlib

/-!
# terraform-provisioner-waffles: the Apply / Validate pipeline

A shallow embedding of `waffles/resource_provisioner.go`.

* Go `string` values that are configuration text are Lean `String`s; raw process
  output is a list of bytes (`Byte`), and `goBytes` renders a `String` as its
  UTF-8 bytes where text and raw output meet (the sink, the error text).
* Go `int` is `Int`; nothing in the program does arithmetic on the two integer
  fields, they are only compared with zero and printed.
* The calling context of `Apply` records its effects in program order
  (`ApplyOutcome.events`).
* While `cmd.Run()` runs, `os/exec` copies the child's stdout and its stderr in
  two goroutines, one per writer installed at lines 105-106. Their atomic steps
  are interleaved by an explicit schedule (`RunResult.sched`, `fanOut`): the
  ring buffer has no lock, so the two stores of one write (the bytes, then the
  cursor) are separate steps; the pipe gates its writers, so handing a chunk to
  the pipe is one step. The relay consumes what the pipe carried, which is what
  it has done when `<-copyDoneCh` returns.
* Third-party code that is not in the sources is either a parameter (`Env`:
  the strict decoder, home-directory expansion, the PATH lookup, the external
  program) or a definition modelled from the specification and marked as such
  (ring buffer, line splitter, validator).
-/

namespace WafflesProvisioner

/-! ## Data model -/

/-- One byte of process output. -/
abbrev Byte := Nat

/-- UTF-8 bytes of a text, the content of the Go string it stands for. -/
def goBytes (s : String) : List Byte :=
  s.data.flatMap fun c => (String.utf8EncodeChar c).map UInt8.toNat

/-- Constant `maxBufSize`: how much output is collected from an invocation. -/
def maxBufSize : Nat := 8 * 1024

/-- Constant `wafflesExec`: the default location of waffles. -/
def wafflesExec : String := "/etc/waffles/waffles.sh"

/-- Record `Waffles`: a decoded Waffles configuration. -/
structure Waffles where
  Debug : Bool
  Host : String
  PrivateKey : String
  RemoteDir : String
  Retry : Int
  Role : String
  SiteDirectory : String
  Sudo : Bool
  User : String
  WafflesExec : String
  Wait : Int
  deriving DecidableEq

/-- A primitive configuration value (nested lists and maps are not modelled). -/
inductive Value where
  | str (s : String)
  | bool (b : Bool)
  | int (i : Int)
  deriving DecidableEq

/-- A Go `map[string]interface{}` as an association list; the first entry of a key counts. -/
abbrev ConfigMap := List (String × Value)

/-- The two maps of `terraform.ResourceConfig` that the provisioner reads. -/
structure ResourceConfig where
  Raw : ConfigMap
  Config : ConfigMap
  deriving DecidableEq

/-- A Go `error` value: one handed back by a library, or one built with `fmt.Errorf`,
which is its text. -/
inductive Error where
  | lib (msg : String)
  | errorf (text : List Byte)
  deriving DecidableEq

/-- Text of an error, what `%v` prints. -/
def Error.text : Error → List Byte
  | .lib msg => goBytes msg
  | .errorf t => t

/-- Struct `exec.Cmd`, the fields the provisioner sets. `Env = none` is Go's nil slice. -/
structure Cmd where
  Path : String
  Args : List String
  Env : Option (List String)
  deriving DecidableEq

/-- Function `filepath.Base` (Unix): the last element of a path, trailing slashes removed;
"." for the empty path and "/" for a path of slashes only. -/
def Base (path : String) : String :=
  if path = "" then "."
  else
    let stripped := (path.data.reverse.dropWhile (· = '/')).reverse
    let last := (stripped.reverse.takeWhile (· ≠ '/')).reverse
    if last = [] then "/" else String.mk last

/-- Function `exec.Command(name, arg...)`: `Args` is the name followed by the arguments,
`Env` is left nil, and `Path` is the name unless the name is a bare file name that
`LookPath` resolves. -/
def Command (lookPath : String → Option String) (name : String) (arg : List String) : Cmd :=
  let cmd : Cmd := { Path := name, Args := name :: arg, Env := none }
  if Base name = name then
    match lookPath name with
    | some lp => { cmd with Path := lp }
    | none => cmd
  else cmd

/-- Go `append(s, x)` on a possibly nil slice: the result is never nil. -/
def sliceAppend (s : Option (List String)) (x : String) : Option (List String) :=
  match s with
  | none => some [x]
  | some l => some (l ++ [x])

/-- The environment of the child process, as `os/exec` documents it: "If Env is nil, the new
process uses the current process's environment", otherwise exactly the entries of `Env`. -/
def Cmd.envv (c : Cmd) (environ : List String) : List String :=
  match c.Env with
  | none => environ
  | some e => e

/-- The two output streams of the child process. -/
inductive Stream where
  | stdout
  | stderr
  deriving DecidableEq

/-- One turn of the scheduler while `cmd.Run()` runs: the goroutine copying the given stream
takes its next step, or the line reader's timeout expires. -/
inductive Tick where
  | copier (s : Stream)
  | timeout
  deriving DecidableEq

/-- What happened during one `cmd.Run()`: the writes of the external program, each to one of
its two streams, in the order the program made them; the order in which the scheduler let
the two copying goroutines and the line reader's timer proceed; and the error `cmd.Run()`
returned (`none` for exit 0). -/
structure RunResult where
  produced : List (Stream × List Byte)
  sched : List Tick
  err : Option Error
  deriving DecidableEq

/-- The chunks the goroutine copying stream `s` hands to its writer, in order. -/
def RunResult.chunks (r : RunResult) (s : Stream) : List (List Byte) :=
  r.produced.filterMap fun w => if w.1 = s then some w.2 else none

/-- Everything outside the source file that `Apply` depends on. -/
structure Env where
  /-- Value of `runtime.GOOS`. -/
  GOOS : String
  /-- Result of `os.Environ()`. -/
  Environ : List String
  /-- Calls `mapstructure.NewDecoder` with `ErrorUnused` and `WeaklyTypedInput`, then `Decode`. -/
  Decode : ConfigMap → Except Error Waffles
  /-- Call `homedir.Expand`. -/
  Expand : String → Except Error String
  /-- Call `exec.LookPath`; `none` when the name is not found. -/
  LookPath : String → Option String
  /-- The external program behind `cmd.Run()`. -/
  Run : Cmd → RunResult

/-! ## Third-party components, modelled from the specification -/

/-- Modelled from the spec: the Bounded Ring Buffer (`circbuf.Buffer`, not in the sources),
which "owns a fixed-size byte array and a logical write cursor", "a fixed-length circular
array with a monotonically increasing write offset": the array, its capacity, the cursor
(the wrap point) and the count of bytes ever written. -/
structure Buffer where
  data : List Byte
  size : Nat
  writeCursor : Nat
  written : Nat
  deriving DecidableEq

/-- Modelled from the spec: `circbuf.NewBuffer`, a fresh ring buffer of the given capacity. -/
def NewBuffer (size : Nat) : Buffer :=
  { data := List.replicate size 0, size := size, writeCursor := 0, written := 0 }

/-- Go `copy(dst[start:], src)`: as many bytes of `src` as fit replace those of `dst` from
`start` on. -/
def copySlice (dst : List Byte) (start : Nat) (src : List Byte) : List Byte :=
  dst.take start ++ src.take (dst.length - start) ++ dst.drop (start + src.length)

/-- Modelled from the spec: first half of `write(bytes)`, storing the bytes: the count of
bytes written grows, a write longer than the capacity keeps its last `size` bytes, and the
bytes are copied in place from the cursor on, wrapping around the end of the array. -/
def Buffer.copyIn (b : Buffer) (buf : List Byte) : Buffer :=
  let n := buf.length
  let buf := if n > b.size then buf.drop (n - b.size) else buf
  let remain := b.size - b.writeCursor
  let data := copySlice b.data b.writeCursor buf
  let data := if buf.length > remain then copySlice data 0 (buf.drop remain) else data
  { b with data := data, written := b.written + n }

/-- Modelled from the spec: second half of `write(bytes)`, moving the cursor past the
bytes stored, modulo the capacity. -/
def Buffer.advance (b : Buffer) (buf : List Byte) : Buffer :=
  let n := buf.length
  let len := if n > b.size then b.size else n
  { b with writeCursor := (b.writeCursor + len) % b.size }

/-- Modelled from the spec: `write(bytes) -> bytes_written`, "always accepts all input,
never blocks, never fails"; "not safe for concurrent writers". -/
def Buffer.Write (b : Buffer) (buf : List Byte) : Buffer × Nat :=
  ((b.copyIn buf).advance buf, buf.length)

/-- Modelled from the spec: `snapshot()` (`circbuf.Buffer.Bytes`), which "reconstructs
contiguous order from the wrap point": the whole array when it is full and the cursor is at
its start, the array rotated at the cursor when it has wrapped, and the bytes before the
cursor otherwise. -/
def Buffer.Bytes (b : Buffer) : List Byte :=
  if b.written ≥ b.size ∧ b.writeCursor = 0 then b.data
  else if b.written > b.size then
    b.data.drop b.writeCursor ++ b.data.take b.writeCursor
  else b.data.take b.writeCursor

/-- What the reading end of the pipe sees, in order: a chunk of bytes, or an expiry of the
line reader's timeout while it waits for more. -/
inductive PipeEvent where
  | data (p : List Byte)
  | timeout
  deriving DecidableEq

/-- The chunks among the events of the pipe. -/
def PipeEvent.chunks (evs : List PipeEvent) : List (List Byte) :=
  evs.filterMap fun e => match e with
    | .data p => some p
    | .timeout => none

/-- State of the Line Splitter: the bytes of the line being assembled and the lines
already emitted. -/
structure LineState where
  pending : List Byte
  emitted : List (List Byte)
  deriving DecidableEq

/-- Modelled from the spec: the Line Splitter (`linereader`, not in the sources) taking one
byte: a newline emits the pending line with the delimiter stripped. -/
def LineState.step (st : LineState) (b : Byte) : LineState :=
  if b = 10 then { pending := [], emitted := st.emitted ++ [st.pending] }
  else { st with pending := st.pending ++ [b] }

/-- Modelled from the spec: the Line Splitter taking one chunk read from its source. -/
def LineState.feed (st : LineState) (chunk : List Byte) : LineState :=
  chunk.foldl LineState.step st

/-- The Line Splitter's timeout (the library's `Timeout`, which the specification does not
describe): when no newline arrives in time, a pending non-empty line is emitted as it is. -/
def LineState.flush (st : LineState) : LineState :=
  if st.pending = [] then st else { pending := [], emitted := st.emitted ++ [st.pending] }

/-- The Line Splitter taking one event of the pipe. -/
def LineState.event (st : LineState) : PipeEvent → LineState
  | .data p => st.feed p
  | .timeout => st.flush

/-- Modelled from the spec: end of stream, "a final partial line is emitted once the source
signals end-of-stream, provided it is non-empty". -/
def LineState.finish (st : LineState) : List (List Byte) :=
  if st.pending = [] then st.emitted else st.emitted ++ [st.pending]

/-- Modelled from the spec: `linereader.New(r).Ch`, the lines of a closed stream on which
the given events occurred. -/
def lineReaderLines (evs : List PipeEvent) : List (List Byte) :=
  (evs.foldl LineState.event { pending := [], emitted := [] }).finish

/-- No timeout expires while a line is partly read. -/
def quietTimeouts (st : LineState) : List PipeEvent → Bool
  | [] => true
  | .data p :: rest => quietTimeouts (st.feed p) rest
  | .timeout :: rest => decide (st.pending = []) && quietTimeouts st rest

/-- A validation error of the required/optional key validator. -/
inductive ValidationError where
  | missing (key : String)
  | unknown (key : String)
  deriving DecidableEq

/-- Struct `config.Validator`: the required and the optional keys. -/
structure Validator where
  Required : List String
  Optional : List String

/-- Modelled from the spec: `config.Validator.Validate` (not in the sources), which "checks
presence of required fields against a fixed optional-field allowlist; unknown fields and
missing required fields are reported as errors, not warnings". It inspects the raw map. -/
def Validator.Validate (v : Validator) (c : ResourceConfig) :
    List String × List ValidationError :=
  let keys := c.Raw.map Prod.fst
  let missing := v.Required.filter fun k => decide (k ∉ keys)
  let unknown := keys.filter fun k => decide (k ∉ v.Required ∧ k ∉ v.Optional)
  ([], missing.map ValidationError.missing ++ unknown.map ValidationError.unknown)

/-! ## The provisioner -/

/-- Function `strconv.Itoa`: base-10 rendering of a signed integer. -/
def Itoa (i : Int) : String :=
  if i < 0 then "-" ++ Nat.repr i.natAbs else Nat.repr i.natAbs

/-- Go `m[k] = v` on the association list. -/
def mapSet (m : ConfigMap) (k : String) (v : Value) : ConfigMap :=
  match m with
  | [] => [(k, v)]
  | (k0, v0) :: rest => if k0 = k then (k, v) :: rest else (k0, v0) :: mapSet rest k v

/-- Method `decodeConfig`: merge `Raw` and `Config` (the latter wins), decode strictly,
default the executable, expand the home directory in the two paths. -/
def decodeConfig (env : Env) (c : ResourceConfig) : Except Error Waffles :=
  let m : ConfigMap := []
  let m := c.Raw.foldl (fun m kv => mapSet m kv.1 kv.2) m
  let m := c.Config.foldl (fun m kv => mapSet m kv.1 kv.2) m
  match env.Decode m with
  | .error err => .error err
  | .ok w =>
    let w := if w.WafflesExec = "" then { w with WafflesExec := wafflesExec } else w
    match env.Expand w.SiteDirectory with
    | .error err => .error err
    | .ok sd =>
      let w := { w with SiteDirectory := sd }
      match env.Expand w.PrivateKey with
      | .error err => .error err
      | .ok pk => .ok { w with PrivateKey := pk }

/-- The local `flags` of `Apply` (lines 69-99): required flags, then the optional ones. -/
def flags (w : Waffles) : List String :=
  let flags := ["-s", w.Host, "-r", w.Role]
  let flags := if w.Debug then flags ++ ["-d"] else flags
  let flags := if w.PrivateKey ≠ "" then flags ++ ["-k", w.PrivateKey] else flags
  let flags := if w.RemoteDir ≠ "" then flags ++ ["-z", w.RemoteDir] else flags
  let flags := if w.Retry ≠ 0 then flags ++ ["-c", Itoa w.Retry] else flags
  let flags := if w.Sudo then flags ++ ["-y"] else flags
  let flags := if w.User ≠ "" then flags ++ ["-u", w.User] else flags
  let flags := if w.Wait ≠ 0 then flags ++ ["-w", Itoa w.Wait] else flags
  flags

/-- The local `cmd` of `Apply` (lines 102-103) as it is when `cmd.Run()` is called. -/
def cmd (env : Env) (w : Waffles) : Cmd :=
  let cmd := Command env.LookPath w.WafflesExec (flags w)
  { cmd with Env := sliceAppend cmd.Env ("WAFFLES_SITE_DIR=" ++ w.SiteDirectory) }

/-- The local `fullCommand` of `Apply` (line 109). -/
def fullCommand (w : Waffles) : String :=
  "WAFFLES_SITE_DIR=" ++ w.SiteDirectory ++ " " ++ w.WafflesExec ++ " " ++
    " ".intercalate (flags w)

/-- The output sink `terraform.UIOutput` as the log of the lines it accepted. -/
abbrev UIOutput := List (List Byte)

/-- Method `UIOutput.Output`: the sink accepts one line. -/
def UIOutput.Output (o : UIOutput) (line : List Byte) : UIOutput := o ++ [line]

/-- Where a copying goroutine is in `io.MultiWriter(output, pw).Write(p)` for its current
chunk: about to store the bytes in the ring buffer, about to move the ring buffer's cursor,
or about to write the chunk to the pipe. -/
inductive Phase where
  | copy
  | advance
  | send
  deriving DecidableEq

/-- One of the two goroutines in which `os/exec` copies a stream of the child to the writer
installed for it: the chunks it still has to write and its place in the current write. -/
structure Copier where
  todo : List (List Byte)
  phase : Phase
  deriving DecidableEq

/-- The state shared by the two writers of lines 105-106: the one ring buffer `output`, the
one pipe, and the two goroutines that write to them. -/
structure FanOut where
  output : Buffer
  pipe : List PipeEvent
  copier : Stream → Copier

/-- The goroutine copying stream `s` takes its next atomic step: of the write of its current
chunk through `io.MultiWriter(output, pw)`, first `output.Write` (storing the bytes, then
moving the cursor), then `pw.Write`. A goroutine that has nothing left does nothing. -/
def FanOut.step (st : FanOut) (s : Stream) : FanOut :=
  match (st.copier s).todo with
  | [] => st
  | p :: rest =>
    match (st.copier s).phase with
    | .copy =>
      { st with output := st.output.copyIn p,
                copier := Function.update st.copier s { todo := p :: rest, phase := .advance } }
    | .advance =>
      { st with output := st.output.advance p,
                copier := Function.update st.copier s { todo := p :: rest, phase := .send } }
    | .send =>
      { st with pipe := st.pipe ++ [.data p],
                copier := Function.update st.copier s { todo := rest, phase := .copy } }

/-- One turn of the scheduler. -/
def FanOut.tick (st : FanOut) : Tick → FanOut
  | .copier s => st.step s
  | .timeout => { st with pipe := st.pipe ++ [.timeout] }

/-- The goroutine copying stream `s` runs until it has written all its chunks. -/
def FanOut.drain (st : FanOut) (s : Stream) : FanOut :=
  (List.replicate (3 * (st.copier s).todo.length) s).foldl FanOut.step st

/-- The writers `cmd.Stdout` and `cmd.Stderr` during `cmd.Run()`: two goroutines, one per
stream, write the chunks of their stream to the same ring buffer and the same pipe, their
steps interleaved as scheduled; `cmd.Run()` returns when both have written everything. -/
def fanOut (output : Buffer) (r : RunResult) : FanOut :=
  let start : FanOut :=
    { output := output, pipe := [],
      copier := fun s => { todo := r.chunks s, phase := .copy } }
  ((r.sched.foldl FanOut.tick start).drain .stdout).drain .stderr

/-- Method `copyOutput`: forward every line of the pipe to the sink, then close `doneCh`
(the second component: the completion signal has fired). -/
def copyOutput (o : UIOutput) (r : List PipeEvent) : UIOutput × Bool :=
  ((lineReaderLines r).foldl UIOutput.Output o, true)

/-- Effects of the calling context of `Apply`, in program order. -/
inductive Event where
  | pipe
  | goCopyOutput
  | output (line : List Byte)
  | run (c : Cmd) (environ : List String)
  | pwClose
  | recvCopyDone
  deriving DecidableEq

/-- What one call of `Apply` did: the returned error (`none` is nil), the effects of the
calling context, and the lines the sink accepted. -/
structure ApplyOutcome where
  result : Option Error
  events : List Event
  sink : UIOutput
  /-- Whether the relay was started (`none`: never) and, if so, whether its completion
  signal had fired when `Apply` returned. -/
  relay : Option Bool
  deriving DecidableEq

/-- Method `Apply`: executes waffles. -/
def Apply (env : Env) (c : ResourceConfig) : ApplyOutcome :=
  match decodeConfig env c with
  | .error err => { result := some err, events := [], sink := [], relay := none }
  | .ok w =>
    if env.GOOS = "windows" then
      { result := some (.errorf (goBytes "Waffles is not supported on Windows at this time.")),
        events := [], sink := [], relay := none }
    else
      let o : UIOutput := []
      let cmd := cmd env w
      let output := NewBuffer maxBufSize
      let fullCommand := fullCommand w
      let o := o.Output (goBytes ("Executing: " ++ fullCommand))
      let ran := env.Run cmd
      let fanout := fanOut output ran
      let output := fanout.output
      let relay := copyOutput o fanout.pipe
      let events := [Event.pipe, Event.goCopyOutput,
        Event.output (goBytes ("Executing: " ++ fullCommand)),
        Event.run cmd (cmd.envv env.Environ), Event.pwClose, Event.recvCopyDone]
      match ran.err with
      | some err =>
        { result := some (.errorf (goBytes ("Error running command '" ++ fullCommand ++ "': ")
            ++ err.text ++ goBytes ". Output: " ++ output.Bytes)),
          events := events, sink := relay.1, relay := some relay.2 }
      | none => { result := none, events := events, sink := relay.1, relay := some relay.2 }

/-- Method `Validate`: checks if the required arguments are configured. -/
def Validate (c : ResourceConfig) : List String × List ValidationError :=
  let validator : Validator :=
    { Required := ["host", "role", "site_directory"],
      Optional := ["debug", "remote_dir", "private_key", "retry", "sudo", "user",
        "waffles_exec", "wait"] }
  validator.Validate c

/-! ## Sample collaborators, used at concrete inputs -/

/-- The keys of the decoded record. -/
def fieldKeys : List String :=
  ["debug", "host", "private_key", "remote_dir", "retry", "role", "site_directory", "sudo",
    "user", "waffles_exec", "wait"]

/-- Reading a text field: an absent key leaves the zero value. -/
def getStr (m : ConfigMap) (k : String) : Except Error String :=
  match m.lookup k with
  | none => .ok ""
  | some (.str s) => .ok s
  | some _ => .error (.lib ("'" ++ k ++ "' expected type 'string'"))

/-- Reading a boolean field: an absent key leaves the zero value. -/
def getBool (m : ConfigMap) (k : String) : Except Error Bool :=
  match m.lookup k with
  | none => .ok false
  | some (.bool b) => .ok b
  | some _ => .error (.lib ("'" ++ k ++ "' expected type 'bool'"))

/-- Reading an integer field: an absent key leaves the zero value. -/
def getInt (m : ConfigMap) (k : String) : Except Error Int :=
  match m.lookup k with
  | none => .ok 0
  | some (.int i) => .ok i
  | some _ => .error (.lib ("'" ++ k ++ "' expected type 'int'"))

/-- Modelled from the spec: a decoder for `Env.Decode` (mapstructure is not in the sources)
under which "decoding rejects unknown fields strictly". The conversions between kinds that
the library's weak typing performs are left out: a value of another kind is an error here. -/
def strictDecode (m : ConfigMap) : Except Error Waffles :=
  match (m.map Prod.fst).filter (fun k => decide (k ∉ fieldKeys)) with
  | k :: ks => .error (.lib ("'' has invalid keys: " ++ ", ".intercalate (k :: ks)))
  | [] => do
    let vDebug ← getBool m "debug"
    let vHost ← getStr m "host"
    let vPrivateKey ← getStr m "private_key"
    let vRemoteDir ← getStr m "remote_dir"
    let vRetry ← getInt m "retry"
    let vRole ← getStr m "role"
    let vSiteDirectory ← getStr m "site_directory"
    let vSudo ← getBool m "sudo"
    let vUser ← getStr m "user"
    let vExec ← getStr m "waffles_exec"
    let vWait ← getInt m "wait"
    pure { Debug := vDebug, Host := vHost, PrivateKey := vPrivateKey, RemoteDir := vRemoteDir,
           Retry := vRetry, Role := vRole, SiteDirectory := vSiteDirectory, Sudo := vSudo,
           User := vUser, WafflesExec := vExec, Wait := vWait }

/-- A stand-in for `homedir.Expand` with a fixed home directory: only a leading "~" that
is alone or followed by a slash is replaced. -/
def expandHome (home : String) (path : String) : Except Error String :=
  match path.data with
  | [] => .ok path
  | c :: rest =>
    if c ≠ '~' then .ok path
    else match rest with
      | [] => .ok home
      | d :: _ =>
        if d ≠ '/' ∧ d ≠ Char.ofNat 92 then .error (.lib "cannot expand user-specific home dir")
        else .ok (home ++ String.mk rest)

/-- A host of the given platform with the sample collaborators and the given program. -/
def sampleEnv (goos : String) (run : Cmd → RunResult) : Env :=
  { GOOS := goos, Environ := ["HOME=/root", "PATH=/usr/bin"], Decode := strictDecode,
    Expand := expandHome "/root", LookPath := fun _ => none, Run := run }

/-- A program that prints the lines "ab" and "c" on stdout in four writes that cut both
lines, and exits 0; the line reader's timeout expires once, between the two lines. -/
def twoLineRun : Cmd → RunResult :=
  fun _ =>
    { produced := [(.stdout, [97]), (.stdout, [98, 10]), (.stdout, [99]), (.stdout, [10])],
      sched := [.copier .stdout, .copier .stdout, .copier .stdout, .copier .stdout,
        .copier .stdout, .copier .stdout, .timeout, .copier .stderr],
      err := none }

/-- A program that prints "ab" on stderr without a newline and exits with status 1. -/
def failingRun : Cmd → RunResult :=
  fun _ =>
    { produced := [(.stderr, [97]), (.stderr, [98])], sched := [],
      err := some (.lib "exit status 1") }

/-- A program that prints nothing and exits 0. -/
def quietRun : Cmd → RunResult :=
  fun _ => { produced := [], sched := [], err := none }

/-- A program that writes the line "o1" to stdout, then "e1" to stderr, then "o2" to stdout
and exits 0, on a run in which the goroutine copying stderr is the first to reach the
pipe. -/
def crossedRun : Cmd → RunResult :=
  fun _ =>
    { produced := [(.stdout, [111, 49, 10]), (.stderr, [101, 49, 10]),
        (.stdout, [111, 50, 10])],
      sched := [.copier .stderr, .copier .stderr, .copier .stderr],
      err := none }

/-- A program that writes "a", pauses, then writes "b" and a newline, all on stdout, and
exits 0; the line reader's timeout expires during the pause. -/
def pausedRun : Cmd → RunResult :=
  fun _ =>
    { produced := [(.stdout, [97]), (.stdout, [98, 10])],
      sched := [.copier .stdout, .copier .stdout, .copier .stdout, .timeout],
      err := none }

/-- A program that writes "o1" and "o2" to stdout and "e1" to stderr, each with its newline,
and exits with status 1, on a run in which both goroutines store their first chunk in the
ring buffer before either has moved the cursor. -/
def racingRun : Cmd → RunResult :=
  fun _ =>
    { produced := [(.stdout, [111, 49, 10]), (.stderr, [101, 49, 10]),
        (.stdout, [111, 50, 10])],
      sched := [.copier .stderr, .copier .stdout, .copier .stdout, .copier .stdout,
        .copier .stdout, .copier .stdout, .copier .stdout, .copier .stderr,
        .copier .stderr],
      err := some (.lib "exit status 1") }

/-- A configuration with a key the record does not have. -/
def unknownKeyConfig : ResourceConfig :=
  { Raw := [("host", .str "www.example.com"), ("role", .str "test"),
      ("site_directory", .str "/srv/waffles"), ("colour", .str "blue")],
    Config := [] }

/-- A decoded configuration whose host is the text of the sudo flag. -/
def dashHost : Waffles :=
  { Debug := true, Host := "-y", PrivateKey := "", RemoteDir := "", Retry := 3,
    Role := "test", SiteDirectory := "/srv/waffles", Sudo := false, User := "",
    WafflesExec := "/etc/waffles/waffles.sh", Wait := 0 }

/-- The configuration of the repository's `Validate_good` test. -/
def goodConfig : ResourceConfig :=
  { Raw := [("host", .str "www.example.com"), ("role", .str "test"),
      ("site_directory", .str "~/waffles")],
    Config := [] }

/-- The record `goodConfig` decodes to under `sampleEnv`. -/
def goodWaffles : Waffles :=
  { Debug := false, Host := "www.example.com", PrivateKey := "", RemoteDir := "", Retry := 0,
    Role := "test", SiteDirectory := "/root/waffles", Sudo := false, User := "",
    WafflesExec := "/etc/waffles/waffles.sh", Wait := 0 }

/-! ## Vocabulary of the proofs -/

/-- Only the goroutine copying `s` has something to write, and what the pipe carried so far
followed by what that goroutine still has to send is `chunks`. -/
def FanOut.Only (s : Stream) (chunks : List (List Byte)) (st : FanOut) : Prop :=
  (∀ t, t ≠ s → (st.copier t).todo = []) ∧
    PipeEvent.chunks st.pipe ++ (st.copier s).todo = chunks

/-- Number of atomic steps a copying goroutine still has to take. -/
def Copier.left (c : Copier) : Nat :=
  match c.todo with
  | [] => 0
  | _ :: rest =>
    3 * rest.length + (match c.phase with
      | .copy => 3
      | .advance => 2
      | .send => 1)

/-- The buffer `big` is the buffer `small` followed by cells that were never written. -/
def Buffer.Extends (big small : Buffer) (rest : List Byte) : Prop :=
  big.data = small.data ++ rest ∧ big.size = small.size + rest.length ∧
    big.writeCursor = small.writeCursor ∧ big.written = small.written ∧
    small.data.length = small.size

/-- The next step of the goroutine copying `s` stays within the array of the buffer. -/
def FanOut.fits (st : FanOut) (s : Stream) : Bool :=
  match (st.copier s).todo with
  | [] => true
  | p :: _ =>
    match (st.copier s).phase with
    | .copy => decide (st.output.writeCursor + p.length ≤ st.output.size)
    | .advance => decide (st.output.writeCursor + p.length < st.output.size)
    | .send => true

/-- Every step of the goroutines, taken in the given order, stays within the array. -/
def FanOut.fitsAll (st : FanOut) : List Stream → Bool
  | [] => true
  | s :: rest => st.fits s && (st.step s).fitsAll rest

/-- The next turn of the scheduler stays within the array of the buffer. -/
def FanOut.fitsTick (st : FanOut) : Tick → Bool
  | .copier s => st.fits s
  | .timeout => true

/-- Every turn of the scheduler, taken in the given order, stays within the array. -/
def FanOut.fitsTicks (st : FanOut) : List Tick → Bool
  | [] => true
  | k :: rest => st.fitsTick k && (st.tick k).fitsTicks rest

/-- The whole run, started on the buffer `small`, stays within its array. -/
def fanOutFits (small : Buffer) (r : RunResult) : Bool :=
  let start : FanOut :=
    { output := small, pipe := [],
      copier := fun s => { todo := r.chunks s, phase := .copy } }
  let scheduled := r.sched.foldl FanOut.tick start
  start.fitsTicks r.sched
    && scheduled.fitsAll (List.replicate (3 * (scheduled.copier .stdout).todo.length) .stdout)
    && (scheduled.drain .stdout).fitsAll
      (List.replicate (3 * ((scheduled.drain .stdout).copier .stderr).todo.length) .stderr)

/-- Two states of the writers that differ only in the never-written end of the buffer. -/
def FanOut.Extends (big small : FanOut) (rest : List Byte) : Prop :=
  big.output.Extends small.output rest ∧ big.pipe = small.pipe ∧ big.copier = small.copier

/-- The buffer holds the byte sequence `s` written to it by one writer: the byte at
distance `d` from the end of `s`, for every `d` up to the capacity, sits `d` cells before
the cursor, around the array. -/
def Buffer.Holds (b : Buffer) (s : List Byte) : Prop :=
  b.data.length = b.size ∧ b.written = s.length ∧ b.writeCursor < b.size ∧
    (s.length ≤ b.size → b.writeCursor = s.length % b.size) ∧
    ∀ d, 1 ≤ d → d ≤ s.length → d ≤ b.size →
      b.data[(b.writeCursor + b.size - d) % b.size]? = s[s.length - d]?

/-- The buffer a copying goroutine leaves when it completes the writes it still has to make
without being interrupted. -/
def Copier.finish (c : Copier) (b : Buffer) : Buffer :=
  match c.todo with
  | [] => b
  | p :: rest =>
    rest.foldl (fun b q => (b.Write q).1)
      (match c.phase with
        | .copy => (b.copyIn p).advance p
        | .advance => b.advance p
        | .send => b)

/-! ## The two copying goroutines -/

theorem step_of_nothing_left (st : FanOut) (s : Stream) (h : (st.copier s).todo = []) :
    st.step s = st := by
  unfold FanOut.step
  simp [h]

theorem chunks_append_data (evs : List PipeEvent) (p : List Byte) :
    PipeEvent.chunks (evs ++ [.data p]) = PipeEvent.chunks evs ++ [p] := by
  simp [PipeEvent.chunks, List.filterMap_append]

theorem chunks_append_timeout (evs : List PipeEvent) :
    PipeEvent.chunks (evs ++ [.timeout]) = PipeEvent.chunks evs := by
  simp [PipeEvent.chunks, List.filterMap_append]

theorem only_step {s : Stream} {chunks : List (List Byte)} {st : FanOut}
    (h : st.Only s chunks) (t : Stream) : (st.step t).Only s chunks := by
  by_cases hts : t = s
  · subst hts
    obtain ⟨hoth, hpipe⟩ := h
    unfold FanOut.step
    cases htodo : (st.copier t).todo with
    | nil => exact ⟨hoth, by rw [htodo] at hpipe; simpa [htodo] using hpipe⟩
    | cons p rest =>
      rw [htodo] at hpipe
      cases hph : (st.copier t).phase with
      | copy =>
        refine ⟨fun u hu => ?_, ?_⟩
        · simpa [Function.update_noteq hu] using hoth u hu
        · simpa using hpipe
      | advance =>
        refine ⟨fun u hu => ?_, ?_⟩
        · simpa [Function.update_noteq hu] using hoth u hu
        · simpa using hpipe
      | send =>
        refine ⟨fun u hu => ?_, ?_⟩
        · simpa [Function.update_noteq hu] using hoth u hu
        · simpa [chunks_append_data] using hpipe
  · rw [step_of_nothing_left st t (h.1 t hts)]
    exact h

theorem only_tick {s : Stream} {chunks : List (List Byte)} {st : FanOut}
    (h : st.Only s chunks) (k : Tick) : (st.tick k).Only s chunks := by
  cases k with
  | copier t => exact only_step h t
  | timeout =>
    refine ⟨h.1, ?_⟩
    show PipeEvent.chunks (st.pipe ++ [.timeout]) ++ (st.copier s).todo = chunks
    rw [chunks_append_timeout]
    exact h.2

theorem only_foldl_tick {s : Stream} {chunks : List (List Byte)} (ks : List Tick) :
    ∀ {st : FanOut}, st.Only s chunks → (ks.foldl FanOut.tick st).Only s chunks := by
  induction ks with
  | nil => intro st h; exact h
  | cons k ks ih => intro st h; exact ih (only_tick h k)

theorem only_foldl_step {s : Stream} {chunks : List (List Byte)} (ts : List Stream) :
    ∀ {st : FanOut}, st.Only s chunks → (ts.foldl FanOut.step st).Only s chunks := by
  induction ts with
  | nil => intro st h; exact h
  | cons t ts ih => intro st h; exact ih (only_step h t)

theorem only_drain {s : Stream} {chunks : List (List Byte)} {st : FanOut}
    (h : st.Only s chunks) (t : Stream) : (st.drain t).Only s chunks := by
  unfold FanOut.drain
  exact only_foldl_step _ h

theorem left_le (c : Copier) : c.left ≤ 3 * c.todo.length := by
  unfold Copier.left
  cases c.todo with
  | nil => simp
  | cons p rest =>
    cases c.phase <;> simp <;> omega

theorem left_eq_zero {c : Copier} (h : c.left = 0) : c.todo = [] := by
  unfold Copier.left at h
  cases hc : c.todo with
  | nil => rfl
  | cons p rest =>
    rw [hc] at h
    cases hp : c.phase <;> rw [hp] at h <;> simp at h

theorem left_step (st : FanOut) (s : Stream) :
    ((st.step s).copier s).left = (st.copier s).left - 1 := by
  unfold FanOut.step
  cases htodo : (st.copier s).todo with
  | nil => simp [Copier.left, htodo]
  | cons p rest =>
    cases hph : (st.copier s).phase with
    | copy => simp [Copier.left, htodo, hph]
    | advance => simp [Copier.left, htodo, hph]
    | send =>
      cases rest with
      | nil => simp [Copier.left, htodo, hph]
      | cons q rest2 => simp [Copier.left, htodo, hph]; omega

theorem left_foldl_step (n : Nat) (s : Stream) : ∀ (st : FanOut),
    (((List.replicate n s).foldl FanOut.step st).copier s).left = (st.copier s).left - n := by
  induction n with
  | zero => intro st; simp
  | succ n ih =>
    intro st
    rw [List.replicate_succ, List.foldl_cons, ih, left_step]
    omega

/-- Once drained, a goroutine has nothing left to write. -/
theorem drain_todo (st : FanOut) (s : Stream) : ((st.drain s).copier s).todo = [] := by
  apply left_eq_zero
  unfold FanOut.drain
  rw [left_foldl_step]
  have := left_le (st.copier s)
  omega

theorem drain_of_nothing_left (st : FanOut) (s : Stream) (h : (st.copier s).todo = []) :
    st.drain s = st := by
  unfold FanOut.drain
  simp [h]

theorem chunks_of_all {produced : List (Stream × List Byte)} {s : Stream}
    (h : ∀ wr ∈ produced, wr.1 = s) :
    (produced.filterMap fun wr => if wr.1 = s then some wr.2 else none)
      = produced.map Prod.snd := by
  induction produced with
  | nil => rfl
  | cons wr rest ih =>
    have h1 : wr.1 = s := h wr (by simp)
    have h2 := ih (fun x hx => h x (by simp [hx]))
    simp [List.filterMap_cons, h1, h2]

theorem chunks_of_none {produced : List (Stream × List Byte)} {s t : Stream}
    (h : ∀ wr ∈ produced, wr.1 = s) (hts : t ≠ s) :
    (produced.filterMap fun wr => if wr.1 = t then some wr.2 else none) = [] := by
  rw [List.filterMap_eq_nil_iff]
  intro wr hwr
  have h1 : wr.1 = s := h wr hwr
  simp [h1, Ne.symm hts]

/-- When the program writes to one stream only, the pipe carries its writes in the order it
made them, whatever the schedule and the buffer. -/
theorem fanOut_single_stream (output : Buffer) (r : RunResult) (s : Stream)
    (h : ∀ wr ∈ r.produced, wr.1 = s) :
    PipeEvent.chunks (fanOut output r).pipe = r.produced.map Prod.snd := by
  have hstart : FanOut.Only s (r.produced.map Prod.snd)
      { output := output, pipe := [],
        copier := fun t => { todo := r.chunks t, phase := .copy } } := by
    refine ⟨fun t ht => chunks_of_none h ht, ?_⟩
    simp [PipeEvent.chunks, RunResult.chunks, chunks_of_all h]
  have hsched := only_foldl_tick r.sched hstart
  have hout := only_drain hsched .stdout
  have hend : (fanOut output r).Only s (r.produced.map Prod.snd) := only_drain hout .stderr
  have htodo : ((fanOut output r).copier s).todo = [] := by
    unfold fanOut
    simp only []
    cases s with
    | stdout =>
      rw [drain_of_nothing_left _ .stderr (hout.1 .stderr (by decide))]
      exact drain_todo _ _
    | stderr => exact drain_todo _ _
  have := hend.2
  rw [htodo, List.append_nil] at this
  exact this

/-! ## The line splitter -/

/-- Feeding the chunks one by one is feeding their concatenation: the emitted lines do not
depend on where the stream was cut. -/
theorem foldl_feed_flatten (chunks : List (List Byte)) (st : LineState) :
    chunks.foldl LineState.feed st = st.feed chunks.flatten := by
  unfold LineState.feed
  rw [List.foldl_flatten]

theorem feed_append (st : LineState) (xs ys : List Byte) :
    st.feed (xs ++ ys) = (st.feed xs).feed ys := by
  simp [LineState.feed, List.foldl_append]

/-- Bytes other than the newline are appended to the pending line. -/
theorem feed_no_newline (l : List Byte) : ∀ (st : LineState), 10 ∉ l →
    st.feed l = { pending := st.pending ++ l, emitted := st.emitted } := by
  induction l with
  | nil => intro st _; simp [LineState.feed]
  | cons x xs ih =>
    intro st h
    have hx : x ≠ 10 := fun e => h (by simp [e])
    have hxs : 10 ∉ xs := fun e => h (by simp [e])
    have := ih (st.step x) hxs
    simp only [LineState.feed, List.foldl_cons] at this ⊢
    rw [this]
    simp [LineState.step, hx]

/-- A line followed by its newline is emitted, stripped of the newline. -/
theorem feed_line (st : LineState) (l : List Byte) (h : 10 ∉ l) :
    st.feed (l ++ [10]) = { pending := [], emitted := st.emitted ++ [st.pending ++ l] } := by
  rw [feed_append, feed_no_newline l st h]
  simp [LineState.feed, LineState.step]

/-- Feeding newline-terminated lines emits exactly those lines. -/
theorem feed_lines (ls : List (List Byte)) : ∀ (out : List (List Byte)),
    (∀ l ∈ ls, 10 ∉ l) →
    LineState.feed { pending := [], emitted := out } (ls.map (· ++ [10])).flatten
      = { pending := [], emitted := out ++ ls } := by
  induction ls with
  | nil => intro out _; simp [LineState.feed]
  | cons l ls ih =>
    intro out h
    have hl : 10 ∉ l := h l (by simp)
    have hls : ∀ l0 ∈ ls, 10 ∉ l0 := fun l0 h0 => h l0 (by simp [h0])
    simp only [List.map_cons, List.flatten_cons]
    rw [feed_append, feed_line _ l hl]
    simpa using ih (out ++ [l]) hls

/-- Timeouts that expire between lines change nothing: the events are read as their
chunks. -/
theorem foldl_event_of_quiet (evs : List PipeEvent) : ∀ (st : LineState),
    quietTimeouts st evs = true →
    evs.foldl LineState.event st = (PipeEvent.chunks evs).foldl LineState.feed st := by
  induction evs with
  | nil => intro st _; rfl
  | cons e evs ih =>
    intro st h
    cases e with
    | data p =>
      simp only [quietTimeouts] at h
      simpa [PipeEvent.chunks, LineState.event] using ih (st.feed p) h
    | timeout =>
      simp only [quietTimeouts, Bool.and_eq_true, decide_eq_true_eq] at h
      have hflush : st.flush = st := by simp [LineState.flush, h.1]
      simpa [PipeEvent.chunks, LineState.event, hflush] using ih st h.2

/-- A stream that consists of the newline-terminated lines `ls`, read in any chunks and with
no timeout in the middle of a line, is split into exactly the lines `ls`. -/
theorem lineReaderLines_of_lines (evs : List PipeEvent) (ls : List (List Byte))
    (hquiet : quietTimeouts { pending := [], emitted := [] } evs = true)
    (hcat : (PipeEvent.chunks evs).flatten = (ls.map (· ++ [10])).flatten)
    (hls : ∀ l ∈ ls, 10 ∉ l) :
    lineReaderLines evs = ls := by
  unfold lineReaderLines
  rw [foldl_event_of_quiet evs _ hquiet, foldl_feed_flatten, hcat, feed_lines ls [] hls]
  simp [LineState.finish]

theorem foldl_output (ls : List (List Byte)) (o : UIOutput) :
    ls.foldl UIOutput.Output o = o ++ ls := by
  induction ls generalizing o with
  | nil => simp
  | cons l ls ih => simp [ih, UIOutput.Output]

/-! ## Unfolding `Apply` -/

/-- Rendering a concatenation renders its parts. -/
theorem goBytes_append (a b : String) : goBytes (a ++ b) = goBytes a ++ goBytes b := by
  simp [goBytes, String.data_append, List.flatMap_append]

/-- On a host other than Windows, with a configuration that decodes to `w`, `Apply` runs the
command and reports as follows. -/
theorem apply_ok (env : Env) (c : ResourceConfig) (w : Waffles)
    (hd : decodeConfig env c = .ok w) (hos : env.GOOS ≠ "windows") :
    Apply env c =
      { result := match (env.Run (cmd env w)).err with
          | some err => some (.errorf (goBytes ("Error running command '" ++ fullCommand w
              ++ "': ") ++ err.text ++ goBytes ". Output: "
              ++ (fanOut (NewBuffer maxBufSize) (env.Run (cmd env w))).output.Bytes))
          | none => none,
        events := [Event.pipe, Event.goCopyOutput,
          Event.output (goBytes ("Executing: " ++ fullCommand w)),
          Event.run (cmd env w) ((cmd env w).envv env.Environ), Event.pwClose,
          Event.recvCopyDone],
        sink := goBytes ("Executing: " ++ fullCommand w)
          :: lineReaderLines (fanOut (NewBuffer maxBufSize) (env.Run (cmd env w))).pipe,
        relay := some true } := by
  unfold Apply
  simp only [hd, hos, if_false]
  cases (env.Run (cmd env w)).err <;>
    simp [copyOutput, foldl_output, UIOutput.Output]

/-- A configuration that fails to decode returns the decoder's error and does nothing else. -/
theorem apply_decode_error (env : Env) (c : ResourceConfig) (err : Error)
    (hd : decodeConfig env c = .error err) :
    Apply env c = { result := some err, events := [], sink := [], relay := none } := by
  unfold Apply
  simp only [hd]

/-- On Windows a configuration that decodes is refused, and nothing else happens. -/
theorem apply_windows_ok (env : Env) (c : ResourceConfig) (w : Waffles)
    (hd : decodeConfig env c = .ok w) (hos : env.GOOS = "windows") :
    Apply env c =
      { result := some (.errorf (goBytes "Waffles is not supported on Windows at this time.")),
        events := [], sink := [], relay := none } := by
  unfold Apply
  simp only [hd, hos, if_true]

/-- The command `Apply` builds: the executable, resolved through PATH only when it is a bare
file name, the flags after the program name, and an environment of one entry. -/
theorem cmd_eq (env : Env) (w : Waffles) :
    (cmd env w).Path = (if Base w.WafflesExec = w.WafflesExec then
        (env.LookPath w.WafflesExec).getD w.WafflesExec else w.WafflesExec) ∧
      (cmd env w).Args = w.WafflesExec :: flags w ∧
      (cmd env w).Env = some ["WAFFLES_SITE_DIR=" ++ w.SiteDirectory] := by
  unfold cmd Command
  by_cases hb : Base w.WafflesExec = w.WafflesExec
  · cases hl : env.LookPath w.WafflesExec <;> simp [hb, hl, sliceAppend]
  · simp [hb, sliceAppend]

/-! ## A run that stays within a prefix of the ring buffer

The runs evaluated below write a few bytes into a buffer of 8192. As long as no write
reaches the end of a short prefix of the array, the buffer behaves as a buffer that
consists of that prefix, which is small enough to be evaluated. -/

theorem copySlice_length (dst : List Byte) (start : Nat) (src : List Byte)
    (h : start ≤ dst.length) : (copySlice dst start src).length = dst.length := by
  simp only [copySlice, List.length_append, List.length_take, List.length_drop]
  omega

theorem copySlice_append (dst rest : List Byte) (start : Nat) (src : List Byte)
    (h : start + src.length ≤ dst.length) :
    copySlice (dst ++ rest) start src = copySlice dst start src ++ rest := by
  unfold copySlice
  have h1 : List.take start (dst ++ rest) = List.take start dst :=
    List.take_append_of_le_length (by omega)
  have h2 : List.drop (start + src.length) (dst ++ rest)
      = List.drop (start + src.length) dst ++ rest :=
    List.drop_append_of_le_length h
  have h3 : List.take ((dst ++ rest).length - start) src = src :=
    List.take_of_length_le (by simp only [List.length_append]; omega)
  have h4 : List.take (dst.length - start) src = src :=
    List.take_of_length_le (by omega)
  rw [h1, h2, h3, h4]
  simp [List.append_assoc]

theorem extends_copyIn {big small : Buffer} {rest : List Byte}
    (h : big.Extends small rest) (p : List Byte)
    (hfit : small.writeCursor + p.length ≤ small.size) :
    (big.copyIn p).Extends (small.copyIn p) rest := by
  obtain ⟨hdata, hsize, hcur, hwr, hlen⟩ := h
  have hs : ¬ (p.length > small.size) := by omega
  have hb : ¬ (p.length > big.size) := by omega
  have hs2 : ¬ (p.length > small.size - small.writeCursor) := by omega
  have hb2 : ¬ (p.length > big.size - big.writeCursor) := by omega
  unfold Buffer.copyIn
  simp only [hs, hb, hs2, hb2, if_false]
  refine ⟨?_, hsize, hcur, by simp [hwr], ?_⟩
  · show copySlice big.data big.writeCursor p = copySlice small.data small.writeCursor p ++ rest
    rw [hdata, hcur]
    exact copySlice_append _ _ _ _ (by omega)
  · show (copySlice small.data small.writeCursor p).length = small.size
    rw [copySlice_length _ _ _ (by omega), hlen]

theorem extends_advance {big small : Buffer} {rest : List Byte}
    (h : big.Extends small rest) (p : List Byte)
    (hfit : small.writeCursor + p.length < small.size) :
    (big.advance p).Extends (small.advance p) rest := by
  obtain ⟨hdata, hsize, hcur, hwr, hlen⟩ := h
  have hs : ¬ (p.length > small.size) := by omega
  have hb : ¬ (p.length > big.size) := by omega
  unfold Buffer.advance
  simp only [hs, hb, if_false]
  refine ⟨hdata, hsize, ?_, hwr, hlen⟩
  show (big.writeCursor + p.length) % big.size = (small.writeCursor + p.length) % small.size
  rw [hcur, Nat.mod_eq_of_lt (by omega), Nat.mod_eq_of_lt hfit]

theorem extends_bytes {big small : Buffer} {rest : List Byte}
    (h : big.Extends small rest) (hw : small.written < small.size)
    (hc : small.writeCursor ≤ small.size) : big.Bytes = small.Bytes := by
  obtain ⟨hdata, hsize, hcur, hwr, hlen⟩ := h
  have h1 : ¬ (small.written ≥ small.size ∧ small.writeCursor = 0) := by omega
  have h2 : ¬ (small.written > small.size) := by omega
  have h3 : ¬ (big.written ≥ big.size ∧ big.writeCursor = 0) := by omega
  have h4 : ¬ (big.written > big.size) := by omega
  unfold Buffer.Bytes
  simp only [h1, h2, h3, h4, if_false]
  rw [hdata, hcur]
  exact List.take_append_of_le_length (by omega)

theorem fanOut_extends_step {big small : FanOut} {rest : List Byte}
    (h : big.Extends small rest) (s : Stream) (hfit : small.fits s = true) :
    (big.step s).Extends (small.step s) rest := by
  obtain ⟨hout, hpipe, hcop⟩ := h
  unfold FanOut.fits at hfit
  unfold FanOut.step
  rw [hcop]
  cases htodo : (small.copier s).todo with
  | nil => exact ⟨hout, hpipe, hcop⟩
  | cons p ps =>
    rw [htodo] at hfit
    cases hph : (small.copier s).phase with
    | copy =>
      rw [hph] at hfit
      exact ⟨extends_copyIn hout p (by simpa using hfit), hpipe, by simp [hcop]⟩
    | advance =>
      rw [hph] at hfit
      exact ⟨extends_advance hout p (by simpa using hfit), hpipe, by simp [hcop]⟩
    | send => exact ⟨hout, by simp [hpipe], by simp [hcop]⟩

theorem fanOut_extends_steps (ss : List Stream) : ∀ {big small : FanOut} {rest : List Byte},
    big.Extends small rest → small.fitsAll ss = true →
    (ss.foldl FanOut.step big).Extends (ss.foldl FanOut.step small) rest := by
  induction ss with
  | nil => intro big small rest h _; exact h
  | cons s ss ih =>
    intro big small rest h hfit
    simp only [FanOut.fitsAll, Bool.and_eq_true] at hfit
    exact ih (fanOut_extends_step h s hfit.1) hfit.2

theorem fanOut_extends_tick {big small : FanOut} {rest : List Byte}
    (h : big.Extends small rest) (k : Tick) (hfit : small.fitsTick k = true) :
    (big.tick k).Extends (small.tick k) rest := by
  cases k with
  | copier s => exact fanOut_extends_step h s hfit
  | timeout => exact ⟨h.1, by simp [FanOut.tick, h.2.1], h.2.2⟩

theorem fanOut_extends_ticks (ks : List Tick) : ∀ {big small : FanOut} {rest : List Byte},
    big.Extends small rest → small.fitsTicks ks = true →
    (ks.foldl FanOut.tick big).Extends (ks.foldl FanOut.tick small) rest := by
  induction ks with
  | nil => intro big small rest h _; exact h
  | cons k ks ih =>
    intro big small rest h hfit
    simp only [FanOut.fitsTicks, Bool.and_eq_true] at hfit
    exact ih (fanOut_extends_tick h k hfit.1) hfit.2

theorem fanOut_extends_drain {big small : FanOut} {rest : List Byte}
    (h : big.Extends small rest) (s : Stream)
    (hfit : small.fitsAll (List.replicate (3 * (small.copier s).todo.length) s) = true) :
    (big.drain s).Extends (small.drain s) rest := by
  unfold FanOut.drain
  rw [h.2.2]
  exact fanOut_extends_steps _ h hfit

/-- A run that fits a small buffer leaves a larger buffer with the same bytes before the
cursor, and the pipe with the same events. -/
theorem fanOut_extends {big small : Buffer} {rest : List Byte} (r : RunResult)
    (h : big.Extends small rest) (hfit : fanOutFits small r = true) :
    (fanOut big r).Extends (fanOut small r) rest := by
  simp only [fanOutFits, Bool.and_eq_true] at hfit
  obtain ⟨⟨h1, h2⟩, h3⟩ := hfit
  have hstart : FanOut.Extends
      { output := big, pipe := [], copier := fun s => { todo := r.chunks s, phase := .copy } }
      { output := small, pipe := [], copier := fun s => { todo := r.chunks s, phase := .copy } }
      rest := ⟨h, rfl, rfl⟩
  have hs := fanOut_extends_ticks r.sched hstart h1
  have hd1 := fanOut_extends_drain hs .stdout h2
  exact fanOut_extends_drain hd1 .stderr h3

theorem newBuffer_extends (k m : Nat) :
    (NewBuffer (k + m)).Extends (NewBuffer k) (List.replicate m 0) := by
  refine ⟨?_, ?_, rfl, rfl, ?_⟩
  · exact List.replicate_add k m 0
  · show k + m = k + (List.replicate m (0 : Byte)).length
    rw [List.length_replicate]
  · exact List.length_replicate k 0

/-- The snapshot `Apply` reports after a run that stays within the first ten cells of the
ring buffer is the snapshot of a ring buffer of ten cells after the same run. -/
theorem apply_bytes_of_fits (r : RunResult) (hfit : fanOutFits (NewBuffer 10) r = true)
    (hw : (fanOut (NewBuffer 10) r).output.written < (fanOut (NewBuffer 10) r).output.size)
    (hc : (fanOut (NewBuffer 10) r).output.writeCursor
      ≤ (fanOut (NewBuffer 10) r).output.size) :
    (fanOut (NewBuffer maxBufSize) r).output.Bytes = (fanOut (NewBuffer 10) r).output.Bytes := by
  have hcap : maxBufSize = 10 + 8182 := by norm_num [maxBufSize]
  rw [hcap]
  exact extends_bytes (fanOut_extends r (newBuffer_extends 10 8182) hfit).1 hw hc

/-! ## The ring buffer under one writer -/

theorem copySlice_get (dst : List Byte) (start : Nat) (src : List Byte) (i : Nat)
    (hs : start ≤ dst.length) :
    (copySlice dst start src)[i]?
      = if start ≤ i ∧ i < start + src.length ∧ i < dst.length then src[i - start]?
        else dst[i]? := by
  unfold copySlice
  rcases Nat.lt_or_ge i start with h1 | h1
  · rw [if_neg (by omega), List.append_assoc,
      List.getElem?_append_left (by simp only [List.length_take]; omega),
      List.getElem?_take_of_lt h1]
  · have hlt : (List.take start dst).length = start := by
      simp only [List.length_take]; omega
    rw [List.append_assoc, List.getElem?_append_right (by omega), hlt]
    by_cases h2 : i < start + src.length ∧ i < dst.length
    · rw [if_pos ⟨h1, h2⟩,
        List.getElem?_append_left (by simp only [List.length_take]; omega),
        List.getElem?_take_of_lt (by omega)]
    · rw [if_neg (by omega)]
      rcases Nat.lt_or_ge i dst.length with h3 | h3
      · have h4 : start + src.length ≤ i := by omega
        have h5 : (List.take (dst.length - start) src).length = src.length := by
          simp only [List.length_take]; omega
        rw [List.getElem?_append_right (by omega), h5, List.getElem?_drop]
        congr 1
        omega
      · rw [List.getElem?_eq_none (l := dst) h3]
        apply List.getElem?_eq_none
        simp only [List.length_append, List.length_take, List.length_drop]
        omega

theorem mod_two {x size : Nat} (h : x < 2 * size) :
    x % size = if x < size then x else x - size := by
  split
  · rename_i hlt
    exact Nat.mod_eq_of_lt hlt
  · rename_i hge
    rw [Nat.mod_eq_sub_mod (by omega), Nat.mod_eq_of_lt (by omega)]

/-- Where the bytes of one write end up: the last `m` bytes of the chunk, `m` being its
length capped at the capacity, occupy the `m` cells from the cursor on, around the array,
and the other cells keep their bytes. -/
theorem copyIn_get (b : Buffer) (p : List Byte) (i : Nat)
    (hlen : b.data.length = b.size) (hc : b.writeCursor < b.size) :
    (b.copyIn p).data.length = b.size ∧
    (b.copyIn p).data[i]?
      = if b.writeCursor ≤ i ∧ i < b.writeCursor + min p.length b.size ∧ i < b.size then
          (p.drop (p.length - min p.length b.size))[i - b.writeCursor]?
        else if i + b.size < b.writeCursor + min p.length b.size then
          (p.drop (p.length - min p.length b.size))[i + b.size - b.writeCursor]?
        else b.data[i]? := by
  obtain ⟨buf, hbuf⟩ : ∃ buf, buf = p.drop (p.length - min p.length b.size) := ⟨_, rfl⟩
  have hbl : buf.length = min p.length b.size := by
    rw [hbuf, List.length_drop]; omega
  have hsel : (if p.length > b.size then p.drop (p.length - b.size) else p) = buf := by
    rw [hbuf]
    split
    · rename_i h; rw [Nat.min_eq_right (by omega)]
    · rename_i h; rw [Nat.min_eq_left (by omega), Nat.sub_self, List.drop_zero]
  have hd1 : (copySlice b.data b.writeCursor buf).length = b.size := by
    rw [copySlice_length _ _ _ (by omega), hlen]
  unfold Buffer.copyIn
  simp only [hsel]
  rw [← hbuf, ← hbl]
  by_cases hwrap : buf.length > b.size - b.writeCursor
  · simp only [hwrap, if_true]
    refine ⟨by rw [copySlice_length _ _ _ (by omega), hd1], ?_⟩
    rw [copySlice_get _ _ _ _ (by omega), hd1, List.length_drop,
      copySlice_get _ _ _ _ (by omega), hlen]
    by_cases h1 : i < buf.length - (b.size - b.writeCursor)
    · have h1' : i < b.size := by omega
      rw [if_pos ⟨by omega, by omega, h1'⟩, if_neg (by omega), if_pos (by omega),
        List.getElem?_drop]
      congr 1
      omega
    · rw [if_neg (by omega)]
      by_cases h2 : b.writeCursor ≤ i ∧ i < b.writeCursor + buf.length ∧ i < b.size
      · rw [if_pos h2, if_pos h2]
      · rw [if_neg h2, if_neg h2, if_neg (by omega)]
  · simp only [hwrap, if_false]
    refine ⟨hd1, ?_⟩
    rw [copySlice_get _ _ _ _ (by omega), hlen]
    by_cases h2 : b.writeCursor ≤ i ∧ i < b.writeCursor + buf.length ∧ i < b.size
    · rw [if_pos h2, if_pos h2]
    · rw [if_neg h2, if_neg h2, if_neg (by omega)]

theorem write_fields (b : Buffer) (p : List Byte) :
    (b.Write p).1.size = b.size ∧
      (b.Write p).1.written = b.written + p.length ∧
      (b.Write p).1.writeCursor = (b.writeCursor + min p.length b.size) % b.size ∧
      (b.Write p).1.data = (b.copyIn p).data := by
  refine ⟨rfl, rfl, ?_, rfl⟩
  show (b.writeCursor + (if p.length > b.size then b.size else p.length)) % b.size = _
  congr 2
  split <;> omega

/-- One more write by the only writer keeps the buffer in step with what was written. -/
theorem holds_write {b : Buffer} {s : List Byte} (hpos : 0 < b.size) (h : b.Holds s)
    (p : List Byte) : (b.Write p).1.Holds (s ++ p) := by
  obtain ⟨hlen, hw, hc, hcur, hdata⟩ := h
  obtain ⟨fsize, fwritten, fcursor, fdata⟩ := write_fields b p
  have hm2 : b.writeCursor + min p.length b.size < 2 * b.size := by omega
  have hc' : (b.Write p).1.writeCursor
      = if b.writeCursor + min p.length b.size < b.size
        then b.writeCursor + min p.length b.size
        else b.writeCursor + min p.length b.size - b.size := by
    rw [fcursor, mod_two hm2]
  refine ⟨?_, ?_, ?_, ?_, ?_⟩
  · rw [fdata, fsize]; exact (copyIn_get b p 0 hlen hc).1
  · rw [fwritten, hw, List.length_append]
  · rw [fcursor, fsize]; exact Nat.mod_lt _ hpos
  · intro hle
    rw [List.length_append] at hle
    rw [fcursor, fsize, hcur (by omega), List.length_append,
      Nat.min_eq_left (by omega), Nat.mod_add_mod]
  · intro d hd1 hd2 hd3
    rw [List.length_append] at hd2
    rw [fsize] at hd3 ⊢
    have hpos2 : (b.Write p).1.writeCursor + b.size - d < 2 * b.size := by
      rw [hc']; split <;> omega
    rw [mod_two hpos2, fdata, (copyIn_get b p _ hlen hc).2, List.length_append]
    by_cases hdm : d ≤ min p.length b.size
    · -- the byte comes from the chunk just written
      have htarget : (s ++ p)[s.length + p.length - d]? = p[p.length - d]? := by
        rw [List.getElem?_append_right (by omega)]
        congr 1
        omega
      rw [htarget, hc']
      split_ifs <;>
        first
        | (exfalso; omega)
        | (rw [List.getElem?_drop]; congr 1; omega)
    · -- the byte was written before and is not overwritten
      have hmin : min p.length b.size = p.length := by omega
      have htarget : (s ++ p)[s.length + p.length - d]? = s[s.length - (d - p.length)]? := by
        rw [List.getElem?_append_left (by omega)]
        congr 1
        omega
      have hold := hdata (d - p.length) (by omega) (by omega) (by omega)
      have hpos3 : b.writeCursor + b.size - (d - p.length) < 2 * b.size := by omega
      rw [mod_two hpos3] at hold
      rw [htarget, ← hold, hc']
      split_ifs <;>
        first
        | (exfalso; omega)
        | (congr 1; omega)

theorem newBuffer_holds (size : Nat) (hpos : 0 < size) : (NewBuffer size).Holds [] := by
  refine ⟨by simp [NewBuffer], rfl, hpos, fun _ => by simp [NewBuffer], ?_⟩
  intro d hd1 hd2
  simp at hd2
  omega

theorem foldl_write_size (ps : List (List Byte)) (b : Buffer) :
    (ps.foldl (fun b q => (b.Write q).1) b).size = b.size := by
  induction ps generalizing b with
  | nil => rfl
  | cons p ps ih => rw [List.foldl_cons, ih]; rfl

theorem foldl_write_holds (ps : List (List Byte)) : ∀ {b : Buffer} {s : List Byte},
    0 < b.size → b.Holds s →
    (ps.foldl (fun b q => (b.Write q).1) b).Holds (s ++ ps.flatten) := by
  induction ps with
  | nil => intro b s _ h; simpa using h
  | cons p ps ih =>
    intro b s hpos h
    have h1 := holds_write hpos h p
    have h2 := ih (b := (b.Write p).1) (s := s ++ p) hpos h1
    simpa [List.append_assoc] using h2

/-- The snapshot of a buffer that one writer filled with `s` is the tail of `s`, at most
`size` bytes long. -/
theorem bytes_of_holds {b : Buffer} {s : List Byte} (hpos : 0 < b.size) (h : b.Holds s) :
    b.Bytes = s.drop (s.length - b.size) := by
  obtain ⟨hlen, hw, hc, hcur, hdata⟩ := h
  apply List.ext_getElem?
  intro i
  rw [List.getElem?_drop]
  rcases Nat.lt_or_ge i (min s.length b.size) with hi | hi
  · -- the byte at distance `d` from the end
    have hd := hdata (min s.length b.size - i) (by omega) (by omega) (by omega)
    have hpos3 : b.writeCursor + b.size - (min s.length b.size - i) < 2 * b.size := by omega
    rw [mod_two hpos3] at hd
    have hidx : s.length - (min s.length b.size - i) = s.length - b.size + i := by omega
    rw [hidx] at hd
    rw [← hd]
    unfold Buffer.Bytes
    rw [hw]
    by_cases hfull : s.length ≥ b.size ∧ b.writeCursor = 0
    · rw [if_pos hfull]
      split_ifs <;> first | (exfalso; omega) | (congr 1; omega)
    · rw [if_neg hfull]
      by_cases hover : s.length > b.size
      · rw [if_pos hover, List.getElem?_append, List.length_drop, hlen]
        split_ifs <;>
          first
          | (exfalso; omega)
          | (rw [List.getElem?_drop]; congr 1; omega)
          | (rw [List.getElem?_take_of_lt (by omega)]; congr 1; omega)
      · rw [if_neg hover]
        have hcv := hcur (by omega)
        have hsl : s.length < b.size := by
          rcases Nat.lt_or_ge s.length b.size with h1 | h1
          · exact h1
          · exfalso
            have : s.length = b.size := by omega
            rw [this, Nat.mod_self] at hcv
            exact hfull ⟨by omega, hcv⟩
        rw [Nat.mod_eq_of_lt hsl] at hcv
        rw [List.getElem?_take_of_lt (by omega)]
        split_ifs <;> first | (exfalso; omega) | (congr 1; omega)
  · rw [List.getElem?_eq_none (l := s) (by omega)]
    apply List.getElem?_eq_none
    unfold Buffer.Bytes
    rw [hw]
    by_cases hfull : s.length ≥ b.size ∧ b.writeCursor = 0
    · rw [if_pos hfull]
      omega
    · rw [if_neg hfull]
      by_cases hover : s.length > b.size
      · rw [if_pos hover]
        simp only [List.length_append, List.length_take, List.length_drop, hlen]
        omega
      · rw [if_neg hover]
        have hcv := hcur (by omega)
        have hsl : s.length < b.size := by
          rcases Nat.lt_or_ge s.length b.size with h1 | h1
          · exact h1
          · exfalso
            have : s.length = b.size := by omega
            rw [this, Nat.mod_self] at hcv
            exact hfull ⟨by omega, hcv⟩
        rw [Nat.mod_eq_of_lt hsl] at hcv
        simp only [List.length_take, hlen]
        omega

theorem finish_start (chunks : List (List Byte)) (b : Buffer) :
    Copier.finish { todo := chunks, phase := .copy } b
      = chunks.foldl (fun b q => (b.Write q).1) b := by
  cases chunks with
  | nil => rfl
  | cons p rest => rfl

/-- A step of a goroutine does not change what it leaves when it completes its writes. -/
theorem finish_step (st : FanOut) (s : Stream) :
    ((st.step s).copier s).finish (st.step s).output = (st.copier s).finish st.output := by
  unfold FanOut.step
  cases htodo : (st.copier s).todo with
  | nil => simp [htodo]
  | cons p rest =>
    cases hph : (st.copier s).phase with
    | copy => simp [Copier.finish, htodo, hph]
    | advance => simp [Copier.finish, htodo, hph]
    | send =>
      simp only [Function.update_same, Copier.finish, htodo, hph]
      exact finish_start rest st.output

theorem finish_foldl_tick {s : Stream} {chunks : List (List Byte)} (ks : List Tick) :
    ∀ {st : FanOut}, st.Only s chunks →
    ((ks.foldl FanOut.tick st).copier s).finish (ks.foldl FanOut.tick st).output
      = (st.copier s).finish st.output := by
  induction ks with
  | nil => intro st _; rfl
  | cons k ks ih =>
    intro st h
    rw [List.foldl_cons, ih (only_tick h k)]
    cases k with
    | copier t =>
      by_cases hts : t = s
      · subst hts; exact finish_step st t
      · show ((st.step t).copier s).finish (st.step t).output = _
        rw [step_of_nothing_left st t (h.1 t hts)]
    | timeout => rfl

theorem finish_foldl_step {s : Stream} {chunks : List (List Byte)} (ts : List Stream) :
    ∀ {st : FanOut}, st.Only s chunks →
    ((ts.foldl FanOut.step st).copier s).finish (ts.foldl FanOut.step st).output
      = (st.copier s).finish st.output := by
  induction ts with
  | nil => intro st _; rfl
  | cons t ts ih =>
    intro st h
    rw [List.foldl_cons, ih (only_step h t)]
    by_cases hts : t = s
    · subst hts; exact finish_step st t
    · rw [step_of_nothing_left st t (h.1 t hts)]

theorem finish_drain {s : Stream} {chunks : List (List Byte)} {st : FanOut}
    (h : st.Only s chunks) (t : Stream) :
    ((st.drain t).copier s).finish (st.drain t).output = (st.copier s).finish st.output := by
  unfold FanOut.drain
  exact finish_foldl_step _ h

/-- When the program writes to one stream only, the ring buffer is written by one goroutine,
chunk after chunk, whatever the schedule. -/
theorem fanOut_single_stream_output (output : Buffer) (r : RunResult) (s : Stream)
    (h : ∀ wr ∈ r.produced, wr.1 = s) :
    (fanOut output r).output
      = (r.produced.map Prod.snd).foldl (fun b q => (b.Write q).1) output := by
  have hstart : FanOut.Only s (r.produced.map Prod.snd)
      { output := output, pipe := [],
        copier := fun t => { todo := r.chunks t, phase := .copy } } := by
    refine ⟨fun t ht => chunks_of_none h ht, ?_⟩
    simp [PipeEvent.chunks, RunResult.chunks, chunks_of_all h]
  have hsched := only_foldl_tick r.sched hstart
  have hout := only_drain hsched .stdout
  have htodo : ((fanOut output r).copier s).todo = [] := by
    unfold fanOut
    simp only []
    cases s with
    | stdout =>
      rw [drain_of_nothing_left _ .stderr (hout.1 .stderr (by decide))]
      exact drain_todo _ _
    | stderr => exact drain_todo _ _
  have hfin : ((fanOut output r).copier s).finish (fanOut output r).output
      = (r.produced.map Prod.snd).foldl (fun b q => (b.Write q).1) output := by
    have e1 := finish_drain hout .stderr
    have e2 := finish_drain hsched .stdout
    have e3 := finish_foldl_tick r.sched hstart
    have e4 : Copier.finish { todo := r.chunks s, phase := .copy } output
        = (r.produced.map Prod.snd).foldl (fun b q => (b.Write q).1) output := by
      rw [finish_start]
      show (r.produced.filterMap _).foldl _ output = _
      rw [chunks_of_all h]
    exact e1.trans (e2.trans (e3.trans e4))
  rw [← hfin]
  unfold Copier.finish
  rw [htodo]

/-- With one stream in use, the snapshot `output.Bytes()` taken by `Apply` is the last
`maxBufSize` bytes the program wrote (all of them when it wrote fewer). -/
theorem fanOut_single_stream_bytes (r : RunResult) (s : Stream)
    (h : ∀ wr ∈ r.produced, wr.1 = s) :
    (fanOut (NewBuffer maxBufSize) r).output.Bytes
      = (r.produced.map Prod.snd).flatten.drop
          ((r.produced.map Prod.snd).flatten.length - maxBufSize) := by
  have hpos : 0 < (NewBuffer maxBufSize).size := by
    show 0 < maxBufSize
    norm_num [maxBufSize]
  have hh := foldl_write_holds (r.produced.map Prod.snd) hpos (newBuffer_holds _ hpos)
  rw [fanOut_single_stream_output _ r s h]
  have hsz := foldl_write_size (r.produced.map Prod.snd) (NewBuffer maxBufSize)
  have := bytes_of_holds (by rw [hsz]; exact hpos) hh
  rw [hsz] at this
  simpa [NewBuffer] using this

/-- On a host other than Windows, for a configuration that decodes to `w` and a program that
writes to one of its two streams only and whose run returns an error, `Apply` fails with
the text "Error running command '...': <error>. Output: " followed by exactly the last
`min n 8192` of the `n` bytes the program wrote, in order. -/
theorem apply_failure_tail_single_stream (env : Env) (c : ResourceConfig) (w : Waffles)
    (hd : decodeConfig env c = .ok w) (hos : env.GOOS ≠ "windows") (s : Stream)
    (hstream : ∀ wr ∈ (env.Run (cmd env w)).produced, wr.1 = s) (err : Error)
    (herr : (env.Run (cmd env w)).err = some err) :
    (Apply env c).result = some (.errorf
        (goBytes ("Error running command '" ++ fullCommand w ++ "': ") ++ err.text
          ++ goBytes ". Output: "
          ++ ((env.Run (cmd env w)).produced.map Prod.snd).flatten.drop
            (((env.Run (cmd env w)).produced.map Prod.snd).flatten.length
              - min ((env.Run (cmd env w)).produced.map Prod.snd).flatten.length 8192))) := by
  rw [apply_ok env c w hd hos]
  have hcap : maxBufSize = 8192 := by norm_num [maxBufSize]
  have hsub : ((env.Run (cmd env w)).produced.map Prod.snd).flatten.length - maxBufSize
      = ((env.Run (cmd env w)).produced.map Prod.snd).flatten.length
        - min ((env.Run (cmd env w)).produced.map Prod.snd).flatten.length 8192 := by
    rw [hcap]; omega
  simp only [herr, fanOut_single_stream_bytes _ s hstream, hsub]

/-- The flags in closed form: the required ones, then one segment per optional field. -/
theorem flags_eq (w : Waffles) :
    flags w = ["-s", w.Host, "-r", w.Role]
      ++ (if w.Debug then ["-d"] else [])
      ++ (if w.PrivateKey ≠ "" then ["-k", w.PrivateKey] else [])
      ++ (if w.RemoteDir ≠ "" then ["-z", w.RemoteDir] else [])
      ++ (if w.Retry ≠ 0 then ["-c", Itoa w.Retry] else [])
      ++ (if w.Sudo then ["-y"] else [])
      ++ (if w.User ≠ "" then ["-u", w.User] else [])
      ++ (if w.Wait ≠ 0 then ["-w", Itoa w.Wait] else []) := by
  unfold flags
  cases w.Debug <;> cases w.Sudo <;>
    by_cases h1 : w.PrivateKey = "" <;> by_cases h2 : w.RemoteDir = "" <;>
    by_cases h3 : w.Retry = 0 <;> by_cases h4 : w.User = "" <;> by_cases h5 : w.Wait = 0 <;>
    simp [h1, h2, h3, h4, h5]

/-! ## Decimal rendering never looks like the sudo flag -/

theorem digitChar_ne (k : Nat) (hk : k < 10) :
    Nat.digitChar k ≠ 'y' ∧ Nat.digitChar k ≠ '-' := by
  interval_cases k <;> decide

theorem toDigitsCore_ne (fuel : Nat) : ∀ (n : Nat) (ds : List Char),
    (∀ ch ∈ ds, ch ≠ 'y' ∧ ch ≠ '-') →
    ∀ ch ∈ Nat.toDigitsCore 10 fuel n ds, ch ≠ 'y' ∧ ch ≠ '-' := by
  induction fuel with
  | zero => intro n ds h; simpa [Nat.toDigitsCore] using h
  | succ fuel ih =>
    intro n ds h
    have hd := digitChar_ne (n % 10) (Nat.mod_lt _ (by decide))
    have hcons : ∀ ch ∈ Nat.digitChar (n % 10) :: ds, ch ≠ 'y' ∧ ch ≠ '-' := by
      intro ch hch
      rcases List.mem_cons.mp hch with rfl | hch
      · exact hd
      · exact h ch hch
    unfold Nat.toDigitsCore
    simp only []
    split
    · exact hcons
    · exact ih _ _ hcons

theorem toDigits_ne (n : Nat) : ∀ ch ∈ Nat.toDigits 10 n, ch ≠ 'y' ∧ ch ≠ '-' :=
  toDigitsCore_ne _ _ _ (by simp)

/-- No integer is rendered as the text of the sudo flag. -/
theorem itoa_ne_sudo_flag (i : Int) : Itoa i ≠ "-y" := by
  intro h
  have hdata := congrArg String.data h
  unfold Itoa at hdata
  split at hdata
  · simp only [String.data_append, Nat.repr, List.asString] at hdata
    have h1 : Nat.toDigits 10 i.natAbs = ['y'] := by
      simpa using hdata
    have := toDigits_ne i.natAbs 'y' (by rw [h1]; simp)
    exact this.1 rfl
  · simp only [Nat.repr, List.asString] at hdata
    have h1 : Nat.toDigits 10 i.natAbs = ['-', 'y'] := hdata
    have := toDigits_ne i.natAbs '-' (by rw [h1]; simp)
    exact this.2 rfl

/-! ## The claims -/

/-- C1: for every decoded configuration `w`, the argument list `Apply` builds is
`-s Host -r Role` followed, in this order and with nothing else, by `-d` iff Debug,
`-k PrivateKey` iff PrivateKey is non-empty, `-z RemoteDir` iff RemoteDir is non-empty,
`-c Itoa(Retry)` iff Retry is non-zero, `-y` iff Sudo, `-u User` iff User is non-empty,
`-w Itoa(Wait)` iff Wait is non-zero; and whenever a configuration decodes to `w` on a host
other than Windows, the one command `Apply` runs is `WafflesExec` (looked up in PATH only
when it is a bare file name) with exactly these arguments. -/
theorem apply_argument_list (w : Waffles) :
    flags w = ["-s", w.Host, "-r", w.Role]
      ++ (if w.Debug then ["-d"] else [])
      ++ (if w.PrivateKey ≠ "" then ["-k", w.PrivateKey] else [])
      ++ (if w.RemoteDir ≠ "" then ["-z", w.RemoteDir] else [])
      ++ (if w.Retry ≠ 0 then ["-c", Itoa w.Retry] else [])
      ++ (if w.Sudo then ["-y"] else [])
      ++ (if w.User ≠ "" then ["-u", w.User] else [])
      ++ (if w.Wait ≠ 0 then ["-w", Itoa w.Wait] else []) ∧
    ∀ (env : Env) (c : ResourceConfig), decodeConfig env c = .ok w → env.GOOS ≠ "windows" →
      ∃ k environ, (Apply env c).events.filter (fun e => e matches .run _ _)
        = [Event.run k environ] ∧
        k.Path = (if Base w.WafflesExec = w.WafflesExec then
          (env.LookPath w.WafflesExec).getD w.WafflesExec else w.WafflesExec) ∧
        k.Args = w.WafflesExec :: flags w := by
  refine ⟨flags_eq w, fun env c hd hos =>
    ⟨cmd env w, (cmd env w).envv env.Environ, ?_, (cmd_eq env w).1, (cmd_eq env w).2.1⟩⟩
  rw [apply_ok env c w hd hos]
  rfl

/-- Witness of C1: the test configuration with a negative retry count and sudo. -/
theorem apply_argument_list_witness :
    (∃ k environ, (Apply (sampleEnv "linux" twoLineRun)
          { goodConfig with Config := [("retry", .int (-2)), ("sudo", .bool true)] }).events.filter
          (fun e => e matches .run _ _) = [Event.run k environ] ∧
        k.Path = "/etc/waffles/waffles.sh" ∧
        k.Args = ["/etc/waffles/waffles.sh", "-s", "www.example.com", "-r", "test",
          "-c", "-2", "-y"]) := by
  have h := (apply_argument_list { goodWaffles with Retry := -2, Sudo := true }).2
    (sampleEnv "linux" twoLineRun)
    { goodConfig with Config := [("retry", .int (-2)), ("sudo", .bool true)] } rfl (by decide)
  obtain ⟨k, environ, h1, h2, h3⟩ := h
  exact ⟨k, environ, h1, by rw [h2]; decide, by rw [h3]; decide⟩

/-- C2: on a host other than Windows, for a configuration that decodes to `w`, `Apply`
returns a failure exactly when running the command returned an error; the text of that
failure contains the text of the run error and the bytes of the ring buffer's snapshot; and
when the command exits 0, `Apply` returns nil. -/
theorem apply_fails_iff_run_fails (env : Env) (c : ResourceConfig) (w : Waffles)
    (hd : decodeConfig env c = .ok w) (hos : env.GOOS ≠ "windows") :
    ((Apply env c).result ≠ none ↔ (env.Run (cmd env w)).err ≠ none) ∧
    (∀ err, (env.Run (cmd env w)).err = some err →
      ∃ text, (Apply env c).result = some (.errorf text) ∧ err.text <:+: text ∧
        (fanOut (NewBuffer maxBufSize) (env.Run (cmd env w))).output.Bytes <:+: text) ∧
    ((env.Run (cmd env w)).err = none → (Apply env c).result = none) := by
  rw [apply_ok env c w hd hos]
  refine ⟨?_, ?_, ?_⟩
  · cases (env.Run (cmd env w)).err <;> simp
  · intro err herr
    simp only [herr]
    refine ⟨_, rfl, ?_, ?_⟩
    · exact ⟨goBytes ("Error running command '" ++ fullCommand w ++ "': "),
        goBytes ". Output: "
          ++ (fanOut (NewBuffer maxBufSize) (env.Run (cmd env w))).output.Bytes,
        by simp [List.append_assoc]⟩
    · exact ⟨goBytes ("Error running command '" ++ fullCommand w ++ "': ") ++ err.text
        ++ goBytes ". Output: ", [], by simp [List.append_assoc]⟩
  · intro h
    simp only [h]

/-- Witness of C2: the test configuration with a program that exits with status 1. -/
theorem apply_fails_iff_run_fails_witness :
    (Apply (sampleEnv "linux" failingRun) goodConfig).result ≠ none
      ↔ (failingRun (cmd (sampleEnv "linux" failingRun) goodWaffles)).err ≠ none :=
  (apply_fails_iff_run_fails (sampleEnv "linux" failingRun) goodConfig goodWaffles rfl
    (by decide)).1

/-- C3 fails on the code: for the test configuration on a host whose environment holds
`HOME=/root`, the command `Apply` runs is handed the single entry
`WAFFLES_SITE_DIR=/root/waffles`, and the inherited `HOME=/root` is not passed through. -/
theorem apply_env_drops_inherited :
    "HOME=/root" ∈ (sampleEnv "linux" quietRun).Environ ∧
      Event.run (cmd (sampleEnv "linux" quietRun) goodWaffles)
          ["WAFFLES_SITE_DIR=/root/waffles"]
        ∈ (Apply (sampleEnv "linux" quietRun) goodConfig).events ∧
      "HOME=/root" ∉ (cmd (sampleEnv "linux" quietRun) goodWaffles).envv
        (sampleEnv "linux" quietRun).Environ := by
  refine ⟨by decide, ?_, by decide⟩
  rw [apply_ok (sampleEnv "linux" quietRun) goodConfig goodWaffles rfl (by decide)]
  decide

/-- C4, as stated, fails twice. A program that writes the lines "o1" (stdout), "e1"
(stderr), "o2" (stdout) in this order and exits 0 can have them reach the sink as "e1",
"o1", "o2", because each stream is copied by a goroutine of its own. And a program that
writes the one line "ab" to stdout, pausing after "a", has it reach the sink as the two
lines "a" and "b", because the line reader's timeout emits the part it has. -/
theorem apply_sink_order_counterexample :
    (((crossedRun (cmd (sampleEnv "linux" crossedRun) goodWaffles)).produced.map
        Prod.snd).flatten = ([[111, 49], [101, 49], [111, 50]].map (· ++ [10])).flatten ∧
      (crossedRun (cmd (sampleEnv "linux" crossedRun) goodWaffles)).err = none ∧
      (Apply (sampleEnv "linux" crossedRun) goodConfig).sink
        = [goBytes ("Executing: " ++ fullCommand goodWaffles),
            [101, 49], [111, 49], [111, 50]] ∧
      (Apply (sampleEnv "linux" crossedRun) goodConfig).sink
        ≠ goBytes ("Executing: " ++ fullCommand goodWaffles)
            :: [[111, 49], [101, 49], [111, 50]]) ∧
    (((pausedRun (cmd (sampleEnv "linux" pausedRun) goodWaffles)).produced.map
        Prod.snd).flatten = ([[97, 98]].map (· ++ [10])).flatten ∧
      (pausedRun (cmd (sampleEnv "linux" pausedRun) goodWaffles)).err = none ∧
      (Apply (sampleEnv "linux" pausedRun) goodConfig).sink
        = [goBytes ("Executing: " ++ fullCommand goodWaffles), [97], [98]] ∧
      (Apply (sampleEnv "linux" pausedRun) goodConfig).sink
        ≠ goBytes ("Executing: " ++ fullCommand goodWaffles) :: [[97, 98]]) := by
  have h1 : (Apply (sampleEnv "linux" crossedRun) goodConfig).sink
      = [goBytes ("Executing: " ++ fullCommand goodWaffles),
          [101, 49], [111, 49], [111, 50]] := by
    rw [apply_ok (sampleEnv "linux" crossedRun) goodConfig goodWaffles rfl (by decide)]
    decide
  have h2 : (Apply (sampleEnv "linux" pausedRun) goodConfig).sink
      = [goBytes ("Executing: " ++ fullCommand goodWaffles), [97], [98]] := by
    rw [apply_ok (sampleEnv "linux" pausedRun) goodConfig goodWaffles rfl (by decide)]
    decide
  refine ⟨⟨by decide, rfl, h1, ?_⟩, ⟨by decide, rfl, h2, ?_⟩⟩
  · rw [h1]
    simp
  · rw [h2]
    simp

/-- C4, amended: on a host other than Windows, for a configuration that decodes to `w` and
a program that writes the newline-terminated lines `ls` to one of its two streams only (in
any chunks), with no timeout of the line reader expiring in the middle of a line, and that
exits 0, `Apply` returns nil and the sink accepts, after the "Executing:" banner of `Apply`
itself, exactly the lines `ls`, in order, once each. -/
theorem apply_relays_single_stream (env : Env) (c : ResourceConfig) (w : Waffles)
    (hd : decodeConfig env c = .ok w) (hos : env.GOOS ≠ "windows")
    (s : Stream) (ls : List (List Byte))
    (hstream : ∀ wr ∈ (env.Run (cmd env w)).produced, wr.1 = s)
    (hwrites : ((env.Run (cmd env w)).produced.map Prod.snd).flatten
      = (ls.map (· ++ [10])).flatten)
    (hls : ∀ l ∈ ls, 10 ∉ l)
    (hquiet : quietTimeouts { pending := [], emitted := [] }
      (fanOut (NewBuffer maxBufSize) (env.Run (cmd env w))).pipe = true)
    (hexit : (env.Run (cmd env w)).err = none) :
    (Apply env c).result = none ∧
      (Apply env c).sink = goBytes ("Executing: " ++ fullCommand w) :: ls := by
  rw [apply_ok env c w hd hos]
  have hcat : (PipeEvent.chunks
      (fanOut (NewBuffer maxBufSize) (env.Run (cmd env w))).pipe).flatten
      = (ls.map (· ++ [10])).flatten := by
    rw [fanOut_single_stream _ _ s hstream, hwrites]
  simp only [hexit, lineReaderLines_of_lines _ ls hquiet hcat hls, and_self]

/-- Witness of C4, amended: two lines on stdout, written in four writes that cut both lines,
with a timeout between the lines. -/
theorem apply_relays_single_stream_witness :
    (Apply (sampleEnv "linux" twoLineRun) goodConfig).result = none ∧
      (Apply (sampleEnv "linux" twoLineRun) goodConfig).sink
        = goBytes ("Executing: " ++ fullCommand goodWaffles) :: [[97, 98], [99]] :=
  apply_relays_single_stream (sampleEnv "linux" twoLineRun) goodConfig goodWaffles rfl
    (by decide) .stdout [[97, 98], [99]] (by decide) (by decide) (by decide) (by decide) rfl

/-- C5 fails on the code: a program writes "o1", "e1", "o2", each with its newline, the
second to stderr and the others to stdout, and exits with status 1; the two goroutines both
store their first chunk at the start of the ring buffer before either moves the cursor.
`Apply` then reports, after "Output: ", the bytes of "o1", "o2" and three zero bytes: not
the nine bytes the program wrote. -/
theorem apply_failure_tail_race :
    ((racingRun (cmd (sampleEnv "linux" racingRun) goodWaffles)).produced.map
        Prod.snd).flatten = [111, 49, 10, 101, 49, 10, 111, 50, 10] ∧
      (Apply (sampleEnv "linux" racingRun) goodConfig).result = some (.errorf
        (goBytes ("Error running command '" ++ fullCommand goodWaffles ++ "': ")
          ++ goBytes "exit status 1" ++ goBytes ". Output: "
          ++ [111, 49, 10, 111, 50, 10, 0, 0, 0])) ∧
      [111, 49, 10, 111, 50, 10, 0, 0, 0]
        ≠ List.drop (9 - min 9 8192) [111, 49, 10, 101, 49, 10, 111, 50, 10] := by
  refine ⟨by decide, ?_, by decide⟩
  rw [apply_ok (sampleEnv "linux" racingRun) goodConfig goodWaffles rfl (by decide)]
  have hbytes : (fanOut (NewBuffer maxBufSize)
      ((sampleEnv "linux" racingRun).Run (cmd (sampleEnv "linux" racingRun)
        goodWaffles))).output.Bytes = [111, 49, 10, 111, 50, 10, 0, 0, 0] := by
    rw [apply_bytes_of_fits _ (by decide) (by decide) (by decide)]
    decide
  have herr : ((sampleEnv "linux" racingRun).Run (cmd (sampleEnv "linux" racingRun)
      goodWaffles)).err = some (.lib "exit status 1") := rfl
  simp only [herr, hbytes]
  rfl

/-- C6: every execution of `Apply` either returns before the pipe and the relay exist (the
configuration did not decode, or the host is Windows) and has no effect at all, or it
starts the relay and then, whatever the run of the command returned, its last two effects
are closing the pipe's write end and receiving the relay's completion signal, which has
fired. -/
theorem apply_joins_relay (env : Env) (c : ResourceConfig) :
    ((Apply env c).relay = none ∧ (Apply env c).events = [] ∧ (Apply env c).sink = [] ∧
        ((∃ err, decodeConfig env c = .error err) ∨ env.GOOS = "windows")) ∨
    ((Apply env c).relay = some true ∧ (∃ w, decodeConfig env c = .ok w) ∧
        env.GOOS ≠ "windows" ∧
        ∃ before, (Apply env c).events = before ++ [Event.pwClose, Event.recvCopyDone] ∧
          Event.goCopyOutput ∈ before ∧ Event.pwClose ∉ before ∧
          Event.recvCopyDone ∉ before ∧
          ∀ e ∈ before, (e matches .run _ _) →
            (before.indexOf Event.goCopyOutput < before.indexOf e)) := by
  cases hd : decodeConfig env c with
  | error err =>
    left
    rw [apply_decode_error env c err hd]
    exact ⟨rfl, rfl, rfl, Or.inl ⟨err, rfl⟩⟩
  | ok w =>
    by_cases hos : env.GOOS = "windows"
    · left
      rw [apply_windows_ok env c w hd hos]
      exact ⟨rfl, rfl, rfl, Or.inr hos⟩
    · right
      rw [apply_ok env c w hd hos]
      refine ⟨rfl, ⟨w, rfl⟩, hos, [Event.pipe, Event.goCopyOutput,
        Event.output (goBytes ("Executing: " ++ fullCommand w)),
        Event.run (cmd env w) ((cmd env w).envv env.Environ)], rfl, by simp, by simp, by simp, ?_⟩
      intro e he hrun
      simp only [List.mem_cons, List.mem_singleton, List.not_mem_nil, or_false] at he
      rcases he with rfl | rfl | rfl | rfl
      · simp at hrun
      · simp at hrun
      · simp at hrun
      · simp [List.indexOf_cons]

/-- C7: a configuration in which one of the keys host, role, site_directory is missing gets
at least one error and no warning from `Validate`. -/
theorem validate_missing_required (c : ResourceConfig)
    (h : ∃ k ∈ ["host", "role", "site_directory"], k ∉ c.Raw.map Prod.fst) :
    (Validate c).1 = [] ∧ 1 ≤ (Validate c).2.length := by
  obtain ⟨k, hk, hmiss⟩ := h
  refine ⟨rfl, ?_⟩
  have hmem : ValidationError.missing k ∈ (Validate c).2 := by
    simp only [Validate, Validator.Validate, List.mem_append, List.mem_map, List.mem_filter]
    exact Or.inl ⟨k, ⟨hk, by simpa using hmiss⟩, rfl⟩
  exact List.length_pos_of_mem hmem

/-- Witness of C7: the empty configuration of the repository's test. -/
theorem validate_missing_required_witness :
    (Validate { Raw := [], Config := [] }).1 = [] ∧
      1 ≤ (Validate { Raw := [], Config := [] }).2.length :=
  validate_missing_required { Raw := [], Config := [] } ⟨"host", by decide, by decide⟩

/-- C8: a configuration whose keys are exactly host, role and site_directory gets no warning
and no error from `Validate`, whatever the values are. -/
theorem validate_exact_keys (c : ResourceConfig)
    (h : ∀ k, k ∈ c.Raw.map Prod.fst ↔ k ∈ ["host", "role", "site_directory"]) :
    Validate c = ([], []) := by
  have h1 : ["host", "role", "site_directory"].filter
      (fun k => decide (k ∉ c.Raw.map Prod.fst)) = [] := by
    rw [List.filter_eq_nil_iff]
    intro k hk
    simpa using (h k).mpr hk
  have h2 : (c.Raw.map Prod.fst).filter (fun k =>
      decide (k ∉ ["host", "role", "site_directory"] ∧
        k ∉ ["debug", "remote_dir", "private_key", "retry", "sudo", "user",
          "waffles_exec", "wait"])) = [] := by
    rw [List.filter_eq_nil_iff]
    intro k hk
    have := (h k).mp hk
    simp only [decide_eq_true_eq, not_and]
    intro hn
    exact absurd this hn
  simp only [Validate, Validator.Validate, h1, h2, List.map_nil, List.append_nil]

/-- Witness of C8: the configuration of the repository's test. -/
theorem validate_exact_keys_witness : Validate goodConfig = ([], []) :=
  validate_exact_keys goodConfig (by
    intro k
    simp [goodConfig])

/-- C9, as stated, fails: with debug = true, retry = 3 and sudo = false, a host named "-y"
puts the text of the sudo flag into the argument list. -/
theorem flags_contain_dash_y :
    dashHost.Debug = true ∧ dashHost.Retry = 3 ∧ dashHost.Sudo = false ∧
      "-y" ∈ flags dashHost := by
  decide

/-- C9, amended: with debug = true, retry = 3 and sudo = false the argument list contains
"-d", contains "-c" immediately followed by "3", and has "-y" as an element only when one
of the values Host, Role, PrivateKey, RemoteDir, User is itself the text "-y": no sudo flag
is added. -/
theorem flags_debug_retry_no_sudo (w : Waffles) (hdebug : w.Debug = true)
    (hretry : w.Retry = 3) (hsudo : w.Sudo = false) :
    "-d" ∈ flags w ∧ ["-c", "3"] <:+: flags w ∧
      ("-y" ∈ flags w ↔ (w.Host = "-y" ∨ w.Role = "-y" ∨ w.PrivateKey = "-y" ∨
        w.RemoteDir = "-y" ∨ w.User = "-y")) := by
  have h3 : Itoa 3 = "3" := by decide
  have hw := itoa_ne_sudo_flag w.Wait
  rw [flags_eq, hdebug, hretry, hsudo, h3]
  refine ⟨by simp, ?_, ?_⟩
  · refine ⟨["-s", w.Host, "-r", w.Role] ++ ["-d"]
        ++ (if w.PrivateKey ≠ "" then ["-k", w.PrivateKey] else [])
        ++ (if w.RemoteDir ≠ "" then ["-z", w.RemoteDir] else []),
      (if w.User ≠ "" then ["-u", w.User] else [])
        ++ (if w.Wait ≠ 0 then ["-w", Itoa w.Wait] else []), ?_⟩
    simp [List.append_assoc]
  · by_cases h1 : w.PrivateKey = "" <;> by_cases h2 : w.RemoteDir = "" <;>
      by_cases h4 : w.User = "" <;> by_cases h5 : w.Wait = 0 <;>
      simp [h1, h2, h4, h5, eq_comm, Ne.symm hw]

/-- Witness of C9, amended: the test configuration with debug and three retries. -/
theorem flags_debug_retry_no_sudo_witness :
    "-d" ∈ flags { goodWaffles with Debug := true, Retry := 3 } ∧
      ["-c", "3"] <:+: flags { goodWaffles with Debug := true, Retry := 3 } :=
  have h := flags_debug_retry_no_sudo { goodWaffles with Debug := true, Retry := 3 } rfl rfl rfl
  ⟨h.1, h.2.1⟩

/-- C10, as stated, fails: on Windows a configuration with an unknown key gets the decoder's
error, not the platform-unsupported failure. -/
theorem apply_windows_decode_error_first :
    (sampleEnv "windows" quietRun).GOOS = "windows" ∧
      (Apply (sampleEnv "windows" quietRun) unknownKeyConfig).result
        = some (.lib "'' has invalid keys: colour") ∧
      (Apply (sampleEnv "windows" quietRun) unknownKeyConfig).result
        ≠ some (.errorf (goBytes "Waffles is not supported on Windows at this time.")) := by
  have h : (Apply (sampleEnv "windows" quietRun) unknownKeyConfig).result
      = some (.lib "'' has invalid keys: colour") := rfl
  refine ⟨rfl, h, ?_⟩
  rw [h]
  simp

/-- C10, amended: on Windows, for every configuration that decodes, `Apply` returns the
platform-unsupported failure with no pipe, relay or command created and the sink never
called; a configuration that does not decode gets the decoder's error instead, because
`Apply` decodes before it looks at the platform, and nothing is created then either. -/
theorem apply_windows_refused (env : Env) (c : ResourceConfig)
    (hos : env.GOOS = "windows") :
    (∀ w, decodeConfig env c = .ok w → Apply env c =
      { result := some (.errorf (goBytes "Waffles is not supported on Windows at this time.")),
        events := [], sink := [], relay := none }) ∧
    (∀ err, decodeConfig env c = .error err → Apply env c =
      { result := some err, events := [], sink := [], relay := none }) :=
  ⟨fun w hd => apply_windows_ok env c w hd hos, fun err hd => apply_decode_error env c err hd⟩

/-- Witness of C10, amended: the test configuration on Windows. -/
theorem apply_windows_refused_witness :
    Apply (sampleEnv "windows" quietRun) goodConfig =
      { result := some (.errorf (goBytes "Waffles is not supported on Windows at this time.")),
        events := [], sink := [], relay := none } :=
  (apply_windows_refused (sampleEnv "windows" quietRun) goodConfig rfl).1 goodWaffles rfl

end WafflesProvisioner
